import Mathlib

/-!
Shallow embedding of the trace-interpretation core of `src/quint-viz/src/itf.ts`
(the ITF visualizer): name normalization, cell extraction, variable
classification, numeric series building and variant-change detection.

Modelling choices:
* JS strings are `List Char`.
* JS numbers are `JsNumber` (`nan` or a finite integer); the ITF cells the
  program handles carry integers, and the only number-producing primitive is
  `Number(<string>)` applied to a `#bigint` payload, modelled by
  `jsNumberOfString` on decimal-integer strings (anything else parses to the
  not-a-number sentinel, as in JS).
* An ITF cell (`unknown` in the source) is `Cell`: a plain number, a JS object
  abstracted to its string-typed `#bigint` and `tag` fields (either may be
  absent or non-string, in which case the corresponding field is `none`), or
  any other shape (`Cell.other`).  `undefined` (variable absent from a state)
  is the `none` of `Option Cell`.
* A JS `Record<string, _>` is an association list with JS property-assignment
  semantics: overwriting keeps the key position, a fresh key is appended.
-/

namespace QuintViz

/-- A JS string (variable names, tags, bigint payloads). -/
abbrev JsStr := List Char

/-- A JS number as the program can observe it: the not-a-number sentinel or a
finite integer value. -/
inductive JsNumber where
  | nan
  | fin (v : Int)
deriving DecidableEq, Repr

/-- Accumulate decimal digits; `none` on the first non-digit character. -/
def decDigitsAux : Nat → List Char → Option Nat
  | acc, [] => some acc
  | acc, c :: rest =>
    if c.isDigit then decDigitsAux (acc * 10 + (c.toNat - 48)) rest else none

/-- Embedding of the JS primitive `Number(<string>)` on the decimal-integer
strings ITF `#bigint` payloads carry: empty string is 0 (as in JS), an
optional minus sign followed by digits is the signed value, anything else is
the not-a-number sentinel. -/
def jsNumberOfString (s : JsStr) : JsNumber :=
  match s with
  | [] => .fin 0
  | '-' :: rest =>
    match rest, decDigitsAux 0 rest with
    | _ :: _, some n => .fin (-(n : Int))
    | _, _ => .nan
  | _ =>
    match decDigitsAux 0 s with
    | some n => .fin (n : Int)
    | none => .nan

/-- An ITF cell (the `unknown` a state maps a variable name to), abstracted to
what the two extractors inspect: a plain number; a JS object with its
string-valued `#bigint` field (if any) and string-valued `tag` field (if any);
or any other value. -/
inductive Cell where
  | num (v : JsNumber)
  | obj (bigintField : Option JsStr) (tagField : Option JsStr)
  | other
deriving DecidableEq, Repr

/-- `extractNumeric` from itf.ts.  The argument is `Option Cell` because the
source applies it to `state[v]`, which is `undefined` (here `none`) when the
variable is absent.  A plain number is returned directly; an object with a
string `#bigint` field returns `Number(payload)`; everything else is `null`
(here `none`). -/
def extractNumeric : Option Cell → Option JsNumber
  | some (.num v) => some v
  | some (.obj (some s) _) => some (jsNumberOfString s)
  | _ => none

/-- `extractVariantTag` from itf.ts: an object with a string `tag` field
returns that tag, everything else returns `null` (here `none`). -/
def extractVariantTag : Option Cell → Option JsStr
  | some (.obj _ (some t)) => some t
  | _ => none

/-- JS `split("::")` on a character list: greedy left-to-right scan, exactly
the semantics of `String.prototype.split` with a two-character separator. -/
def splitColons : List Char → List (List Char)
  | [] => [[]]
  | [c] => [[c]]
  | a :: b :: rest =>
    if a = ':' ∧ b = ':' then [] :: splitColons rest
    else
      match splitColons (b :: rest) with
      | [] => [[a]]
      | seg :: segs => (a :: seg) :: segs

/-- `stripPrefix` from itf.ts: `name.split("::")` and take the last part.
`splitColons` never returns an empty list, so the `[]` default of `getLastD`
is never used (in JS the index `parts.length - 1` always exists). -/
def stripPrefix (name : JsStr) : JsStr :=
  (splitColons name).getLastD []

/-- Does a character list contain the separator `::` as a contiguous
substring (an adjacent pair of colons). -/
def hasColons : List Char → Bool
  | [] => false
  | [_] => false
  | a :: b :: rest => (a = ':' && b = ':') || hasColons (b :: rest)

/-- A name made of separator-delimited segments: the segments interleaved
with `::`.  Used to state the spec's "a name made of k separator-delimited
segments". -/
def joinColons : List (List Char) → List Char
  | [] => []
  | [x] => x
  | x :: y :: rest => x ++ ':' :: ':' :: joinColons (y :: rest)

/-- A state: a finite mapping from fully-qualified variable name to cell.
Association list with first-match lookup (JS object keys are unique, so the
distinction never matters on images of real states). -/
abbrev ItfState := List (JsStr × Cell)

/-- `state[v]`: `undefined` (`none`) when the variable is absent. -/
def getVar (state : ItfState) (v : JsStr) : Option Cell :=
  state.lookup v

/-- `classifyVars` from itf.ts: walk the declared names in order; a name whose
first-state cell extracts numerically goes to the numeric group, else one
whose cell has a variant tag goes to the variant group, else it is dropped. -/
def classifyVars (state : ItfState) (varNames : List JsStr) :
    List JsStr × List JsStr :=
  match varNames with
  | [] => ([], [])
  | v :: rest =>
    let r := classifyVars state rest
    if (extractNumeric (getVar state v)).isSome then (v :: r.1, r.2)
    else if (extractVariantTag (getVar state v)).isSome then (r.1, v :: r.2)
    else r

/-- The `Record<string, number[]>` the series builder fills. -/
abbrev SeriesMap := List (JsStr × List JsNumber)

/-- Reading `series[k]`. -/
def getKey (m : SeriesMap) (k : JsStr) : Option (List JsNumber) :=
  m.lookup k

/-- JS property assignment `series[k] = v`: overwrite in place if the key
exists (its position is kept), otherwise append the new key at the end. -/
def setKey : SeriesMap → JsStr → List JsNumber → SeriesMap
  | [], k, v => [(k, v)]
  | (k', v') :: rest, k, v =>
    if k' = k then (k, v) :: rest else (k', v') :: setKey rest k v

/-- One inner-loop iteration of `buildSeries`:
`series[stripPrefix(v)].push(extractNumeric(state[v]) ?? 0)`.  The key always
exists when the source reaches this line (it was initialized), so the `getD`
default is never used on reachable inputs. -/
def pushVar (state : ItfState) (m : SeriesMap) (v : JsStr) : SeriesMap :=
  setKey m (stripPrefix v)
    (((getKey m (stripPrefix v)).getD []) ++
      [(extractNumeric (getVar state v)).getD (.fin 0)])

/-- `buildSeries` from itf.ts: initialize `series[stripPrefix(v)] = []` for
each declared name, then for each state in order and each name in order push
the extracted value (0 when extraction fails or the variable is absent). -/
def buildSeries (states : List ItfState) (varNames : List JsStr) : SeriesMap :=
  let init := varNames.foldl (fun m v => setKey m (stripPrefix v) []) []
  states.foldl (fun m state => varNames.foldl (pushVar state) m) init

/-- A variant change event, as in itf.ts. -/
structure VariantChange where
  step : Nat
  fromTag : JsStr
  toTag : JsStr
deriving DecidableEq, Repr

/-- The `"?"` placeholder rendered for an absent tag. -/
def qmark : JsStr := ['?']

/-- The loop of `findVariantChanges`: `prev` is `tags[i-1]`, the list argument
is the suffix `tags[i..]`. -/
def findVariantChangesAux (prev : Option JsStr) (i : Nat) :
    List (Option JsStr) → List VariantChange
  | [] => []
  | t :: rest =>
    (if t ≠ prev then [⟨i, prev.getD qmark, t.getD qmark⟩] else []) ++
      findVariantChangesAux t (i + 1) rest

/-- `findVariantChanges` from itf.ts: for `i` from 1 to `tags.length - 1`,
emit `{step: i, fromTag: tags[i-1] ?? "?", toTag: tags[i] ?? "?"}` whenever
`tags[i] !== tags[i-1]` (strict JS comparison: `null` differs from every
string). -/
def findVariantChanges (tags : List (Option JsStr)) : List VariantChange :=
  match tags with
  | [] => []
  | t :: rest => findVariantChangesAux t 1 rest

/-! ## Lemmas about name normalization (`splitColons`, `stripPrefix`) -/

theorem splitColons_ne_nil (s : List Char) : splitColons s ≠ [] := by
  induction s using splitColons.induct with
  | case1 => simp [splitColons]
  | case2 => simp [splitColons]
  | case3 a b rest h ih => simp [splitColons, h]
  | case4 a b rest h hm ih => exact absurd hm ih
  | case5 a b rest h seg segs hm ih => simp [splitColons, h, hm]

/-- A list without the separator is not split. -/
theorem splitColons_of_hasColons_eq_false (s : List Char)
    (h : hasColons s = false) : splitColons s = [s] := by
  induction s using splitColons.induct with
  | case1 => simp [splitColons]
  | case2 => simp [splitColons]
  | case3 a b rest hc ih => simp [hasColons, hc.1, hc.2] at h
  | case4 a b rest hc hm ih => exact absurd hm (splitColons_ne_nil _)
  | case5 a b rest hc seg segs hm ih =>
    have h2 : hasColons (b :: rest) = false := by
      simp only [hasColons, Bool.or_eq_false_iff] at h
      exact h.2
    have heq : seg :: segs = [b :: rest] := by rw [← hm, ih h2]
    simp only [List.cons.injEq, and_true] at heq
    obtain ⟨e1, e2⟩ := heq
    simp [splitColons, hc, hm, e1, e2]

/-- The first part of the split is a prefix of the input. -/
theorem headI_splitColons_isPrefix (s : List Char) :
    (splitColons s).headI <+: s := by
  induction s using splitColons.induct with
  | case1 => simp [splitColons]
  | case2 => simp [splitColons]
  | case3 a b rest hc ih => simp [splitColons, hc]
  | case4 a b rest hc hm ih => exact absurd hm (splitColons_ne_nil _)
  | case5 a b rest hc seg segs hm ih =>
    simp only [splitColons, if_neg hc, hm, List.headI]
    rw [hm] at ih
    simp only [List.headI] at ih
    exact (List.prefix_cons_inj a).mpr ih

/-- No part produced by the split still contains the separator. -/
theorem hasColons_eq_false_of_mem_splitColons (s : List Char) :
    ∀ seg ∈ splitColons s, hasColons seg = false := by
  induction s using splitColons.induct with
  | case1 => simp [splitColons, hasColons]
  | case2 => simp [splitColons, hasColons]
  | case3 a b rest hc ih =>
    intro seg hseg
    simp only [splitColons, if_pos hc, List.mem_cons] at hseg
    rcases hseg with h1 | h2
    · simp [h1, hasColons]
    · exact ih seg h2
  | case4 a b rest hc hm ih => exact absurd hm (splitColons_ne_nil _)
  | case5 a b rest hc seg segs hm ih =>
    intro sg hsg
    simp only [splitColons, if_neg hc, hm, List.mem_cons] at hsg
    rcases hsg with h1 | h2
    · subst h1
      have hseg : hasColons seg = false :=
        ih seg (by rw [hm]; exact List.mem_cons_self ..)
      have hpre : (splitColons (b :: rest)).headI <+: b :: rest :=
        headI_splitColons_isPrefix _
      rw [hm] at hpre
      simp only [List.headI] at hpre
      match seg, hseg, hpre with
      | [], _, _ => simp [hasColons]
      | c :: seg', hseg, hpre =>
        obtain ⟨t, ht⟩ := hpre
        rw [List.cons_append] at ht
        have hcb : c = b := by injection ht
        subst hcb
        simp only [hasColons, Bool.or_eq_false_iff, Bool.and_eq_false_iff,
          decide_eq_false_iff_not]
        exact ⟨not_and_or.mp hc, hseg⟩
    · exact ih sg (by rw [hm]; exact List.mem_cons_of_mem _ h2)

theorem hasColons_eq_false_of_not_colon (x : List Char) (hx : ':' ∉ x) :
    hasColons x = false := by
  induction x with
  | nil => simp [hasColons]
  | cons a tail ih =>
    have ha : a ≠ ':' := fun h => hx (h ▸ List.mem_cons_self ..)
    have hx2 : ':' ∉ tail := fun h => hx (List.mem_cons_of_mem _ h)
    match tail with
    | [] => simp [hasColons]
    | b :: rest =>
      simp only [hasColons, Bool.or_eq_false_iff, Bool.and_eq_false_iff,
        decide_eq_false_iff_not]
      exact ⟨Or.inl ha, ih hx2⟩

/-- Splitting starts by cutting at the leftmost separator occurrence. -/
theorem splitColons_append_sep (x t : List Char) (hx : ':' ∉ x) :
    splitColons (x ++ ':' :: ':' :: t) = x :: splitColons t := by
  induction x with
  | nil => simp [splitColons]
  | cons c x' ih =>
    have hc1 : c ≠ ':' := fun h => hx (h ▸ List.mem_cons_self ..)
    have hx2 : ':' ∉ x' := fun h => hx (List.mem_cons_of_mem _ h)
    obtain ⟨d, rest2, htail⟩ : ∃ d rest2, x' ++ ':' :: ':' :: t = d :: rest2 := by
      cases x' <;> exact ⟨_, _, rfl⟩
    have hnc : ¬(c = ':' ∧ d = ':') := fun h => hc1 h.1
    rw [List.cons_append, htail]
    simp only [splitColons, if_neg hnc]
    have hrec := ih hx2
    rw [htail] at hrec
    rw [hrec]

/-- Splitting a join of colon-free segments recovers the segments. -/
theorem splitColons_joinColons (segs : List (List Char)) (hne : segs ≠ [])
    (hc : ∀ seg ∈ segs, ':' ∉ seg) :
    splitColons (joinColons segs) = segs := by
  induction segs with
  | nil => exact absurd rfl hne
  | cons x tail ih =>
    match tail with
    | [] =>
      show splitColons (joinColons [x]) = [x]
      simp only [joinColons]
      exact splitColons_of_hasColons_eq_false x
        (hasColons_eq_false_of_not_colon x (hc x (List.mem_cons_self ..)))
    | y :: rest =>
      simp only [joinColons]
      rw [splitColons_append_sep x _ (hc x (List.mem_cons_self ..))]
      rw [ih (by simp) (fun sg hsg => hc sg (List.mem_cons_of_mem _ hsg))]

theorem getLastD_mem (l : List α) (d : α) (h : l ≠ []) : l.getLastD d ∈ l := by
  match l with
  | [] => exact absurd rfl h
  | a :: l' =>
    rw [List.getLastD_cons]
    exact List.getLastD_mem_cons l' a

/-- The short name produced by `stripPrefix` never contains the separator. -/
theorem hasColons_stripPrefix (s : List Char) :
    hasColons (stripPrefix s) = false :=
  hasColons_eq_false_of_mem_splitColons s _
    (getLastD_mem _ _ (splitColons_ne_nil s))

/-! ## Lemmas about the series map and `buildSeries` -/

theorem getKey_nil (k : JsStr) : getKey [] k = none := rfl

theorem getKey_cons (k0 : JsStr) (v0 : List JsNumber) (rest : SeriesMap)
    (k : JsStr) :
    getKey ((k0, v0) :: rest) k = if k = k0 then some v0 else getKey rest k := by
  show List.lookup k ((k0, v0) :: rest) = _
  rw [List.lookup_cons]
  by_cases h : k = k0
  · rw [show (k == k0) = true from by simp [h], if_pos h]
  · rw [show (k == k0) = false from by simp [h], if_neg h]
    rfl

theorem getKey_setKey_self (m : SeriesMap) (k : JsStr) (v : List JsNumber) :
    getKey (setKey m k v) k = some v := by
  induction m with
  | nil => simp [setKey, getKey_cons]
  | cons p rest ih =>
    obtain ⟨k', v'⟩ := p
    by_cases h : k' = k
    · simp [setKey, h, getKey_cons]
    · simp [setKey, h, getKey_cons, Ne.symm h, ih]

theorem getKey_setKey_ne (m : SeriesMap) (k k' : JsStr) (v : List JsNumber)
    (h : k ≠ k') : getKey (setKey m k v) k' = getKey m k' := by
  induction m with
  | nil => simp [setKey, getKey_cons, getKey_nil, Ne.symm h]
  | cons p rest ih =>
    obtain ⟨k0, v0⟩ := p
    by_cases h0 : k0 = k
    · subst h0
      simp [setKey, getKey_cons, Ne.symm h]
    · simp [setKey, h0, getKey_cons, ih]

theorem isSome_getKey_setKey (m : SeriesMap) (k k' : JsStr) (v : List JsNumber) :
    (getKey (setKey m k v) k').isSome ↔ (getKey m k').isSome ∨ k' = k := by
  by_cases h : k = k'
  · subst h
    simp [getKey_setKey_self]
  · simp [getKey_setKey_ne m k k' v h, Ne.symm h]
theorem getKey_foldl_init_not_mem (vars : List JsStr) (m0 : SeriesMap)
    (k : JsStr) (h : k ∉ vars.map stripPrefix) :
    getKey (vars.foldl (fun m v => setKey m (stripPrefix v) []) m0) k
      = getKey m0 k := by
  induction vars generalizing m0 with
  | nil => rfl
  | cons w rest ih =>
    simp only [List.map_cons, List.mem_cons, not_or] at h
    rw [List.foldl_cons, ih _ h.2, getKey_setKey_ne _ _ _ _ (fun he => h.1 he.symm)]

theorem getKey_foldl_init_mem (vars : List JsStr) (m0 : SeriesMap)
    (k : JsStr) (h : k ∈ vars.map stripPrefix) :
    getKey (vars.foldl (fun m v => setKey m (stripPrefix v) []) m0) k
      = some [] := by
  induction vars generalizing m0 with
  | nil => simp at h
  | cons w rest ih =>
    rw [List.foldl_cons]
    by_cases h2 : k ∈ rest.map stripPrefix
    · exact ih _ h2
    · have hk : k = stripPrefix w := by
        simp only [List.map_cons, List.mem_cons] at h
        tauto
      rw [getKey_foldl_init_not_mem _ _ _ h2, hk, getKey_setKey_self]

theorem isSome_getKey_foldl_init (vars : List JsStr) (m0 : SeriesMap)
    (k : JsStr) :
    (getKey (vars.foldl (fun m v => setKey m (stripPrefix v) []) m0) k).isSome
      ↔ (getKey m0 k).isSome ∨ k ∈ vars.map stripPrefix := by
  by_cases h : k ∈ vars.map stripPrefix
  · simp [getKey_foldl_init_mem vars m0 k h, h]
  · simp [getKey_foldl_init_not_mem vars m0 k h, h]

theorem getKey_foldl_pushVar_not_mem (vars : List JsStr) (st : ItfState)
    (m : SeriesMap) (k : JsStr) (h : k ∉ vars.map stripPrefix) :
    getKey (vars.foldl (pushVar st) m) k = getKey m k := by
  induction vars generalizing m with
  | nil => rfl
  | cons w rest ih =>
    simp only [List.map_cons, List.mem_cons, not_or] at h
    rw [List.foldl_cons, ih _ h.2]
    exact getKey_setKey_ne _ _ _ _ (fun he => h.1 he.symm)

theorem isSome_getKey_foldl_pushVar (vars : List JsStr) (st : ItfState)
    (m : SeriesMap) (k : JsStr) :
    (getKey (vars.foldl (pushVar st) m) k).isSome
      ↔ (getKey m k).isSome ∨ k ∈ vars.map stripPrefix := by
  induction vars generalizing m with
  | nil => simp
  | cons w rest ih =>
    rw [List.foldl_cons]
    rw [ih]
    simp only [pushVar, isSome_getKey_setKey, List.map_cons, List.mem_cons]
    tauto

theorem getKey_foldl_pushVar_nodup (vars : List JsStr) (st : ItfState)
    (m : SeriesMap) (v : JsStr) (hnd : (vars.map stripPrefix).Nodup)
    (hv : v ∈ vars) :
    getKey (vars.foldl (pushVar st) m) (stripPrefix v)
      = some ((getKey m (stripPrefix v)).getD []
          ++ [(extractNumeric (getVar st v)).getD (.fin 0)]) := by
  induction vars generalizing m with
  | nil => simp at hv
  | cons w rest ih =>
    simp only [List.map_cons, List.nodup_cons] at hnd
    rw [List.foldl_cons]
    rcases List.mem_cons.mp hv with he | hr
    · subst he
      have hnm : stripPrefix v ∉ rest.map stripPrefix := hnd.1
      rw [getKey_foldl_pushVar_not_mem _ _ _ _ hnm]
      simp only [pushVar]
      rw [getKey_setKey_self]
    · have hne : stripPrefix w ≠ stripPrefix v := by
        intro he
        exact hnd.1 (he ▸ List.mem_map_of_mem stripPrefix hr)
      rw [ih _ hnd.2 hr]
      simp only [pushVar]
      rw [getKey_setKey_ne _ _ _ _ hne]
theorem getKey_foldl_states_nodup (states : List ItfState) (vars : List JsStr)
    (v : JsStr) (hnd : (vars.map stripPrefix).Nodup) (hv : v ∈ vars)
    (m : SeriesMap) (acc : List JsNumber)
    (hm : getKey m (stripPrefix v) = some acc) :
    getKey (states.foldl (fun m state => vars.foldl (pushVar state) m) m)
        (stripPrefix v)
      = some (acc ++ states.map
          (fun st => (extractNumeric (getVar st v)).getD (.fin 0))) := by
  induction states generalizing m acc with
  | nil => simpa using hm
  | cons st rest ih =>
    rw [List.foldl_cons]
    rw [ih _ _ (by rw [getKey_foldl_pushVar_nodup vars st m v hnd hv, hm])]
    simp

/-- The workhorse: with pairwise-distinct short names, the series stored for
a variable is exactly the per-state extraction with default 0. -/
theorem getKey_buildSeries_nodup (states : List ItfState) (vars : List JsStr)
    (v : JsStr) (hnd : (vars.map stripPrefix).Nodup) (hv : v ∈ vars) :
    getKey (buildSeries states vars) (stripPrefix v)
      = some (states.map
          (fun st => (extractNumeric (getVar st v)).getD (.fin 0))) := by
  have hinit : getKey (vars.foldl (fun m v => setKey m (stripPrefix v) []) [])
      (stripPrefix v) = some [] :=
    getKey_foldl_init_mem vars [] _ (List.mem_map_of_mem stripPrefix hv)
  simpa using getKey_foldl_states_nodup states vars v hnd hv _ [] hinit

theorem isSome_getKey_buildSeries (states : List ItfState) (vars : List JsStr)
    (k : JsStr) :
    (getKey (buildSeries states vars) k).isSome ↔ k ∈ vars.map stripPrefix := by
  show (getKey (states.foldl _ _) k).isSome ↔ _
  have base : (getKey (vars.foldl (fun m v => setKey m (stripPrefix v) []) [])
      k).isSome ↔ k ∈ vars.map stripPrefix := by
    rw [isSome_getKey_foldl_init]
    simp [getKey_nil]
  generalize hm : vars.foldl (fun m v => setKey m (stripPrefix v) []) [] = m0 at base ⊢
  clear hm
  induction states generalizing m0 with
  | nil => exact base
  | cons st rest ih =>
    rw [List.foldl_cons]
    apply ih
    rw [isSome_getKey_foldl_pushVar]
    tauto

theorem buildSeries_nil_vars (states : List ItfState) :
    buildSeries states [] = [] := by
  show states.foldl _ [] = []
  induction states with
  | nil => rfl
  | cons st rest ih => exact ih

/-- Colliding pair: both variables push into the same entry, one sample per
variable per state, in input order. -/
theorem getKey_foldl_states_pair (states : List ItfState) (v1 v2 : JsStr)
    (hcol : stripPrefix v1 = stripPrefix v2)
    (m : SeriesMap) (acc : List JsNumber)
    (hm : getKey m (stripPrefix v2) = some acc) :
    getKey (states.foldl
        (fun m state => [v1, v2].foldl (pushVar state) m) m) (stripPrefix v2)
      = some (acc ++ states.flatMap
          (fun st => [(extractNumeric (getVar st v1)).getD (.fin 0),
            (extractNumeric (getVar st v2)).getD (.fin 0)])) := by
  induction states generalizing m acc with
  | nil => simpa using hm
  | cons st rest ih =>
    rw [List.foldl_cons]
    have h1 : getKey (pushVar st m v1) (stripPrefix v2)
        = some (acc ++ [(extractNumeric (getVar st v1)).getD (.fin 0)]) := by
      simp only [pushVar, hcol]
      rw [getKey_setKey_self, hm]
      rfl
    have h2 : getKey ([v1, v2].foldl (pushVar st) m) (stripPrefix v2)
        = some (acc ++ [(extractNumeric (getVar st v1)).getD (.fin 0),
            (extractNumeric (getVar st v2)).getD (.fin 0)]) := by
      show getKey (pushVar st (pushVar st m v1) v2) (stripPrefix v2) = _
      rw [pushVar, getKey_setKey_self, h1]
      simp
    rw [ih _ _ h2]
    simp

theorem getKey_buildSeries_pair (states : List ItfState) (v1 v2 : JsStr)
    (hcol : stripPrefix v1 = stripPrefix v2) :
    getKey (buildSeries states [v1, v2]) (stripPrefix v2)
      = some (states.flatMap
          (fun st => [(extractNumeric (getVar st v1)).getD (.fin 0),
            (extractNumeric (getVar st v2)).getD (.fin 0)])) := by
  have hinit : getKey ([v1, v2].foldl (fun m v => setKey m (stripPrefix v) []) [])
      (stripPrefix v2) = some [] :=
    getKey_foldl_init_mem [v1, v2] [] _ (by simp)
  simpa using getKey_foldl_states_pair states v1 v2 hcol _ [] hinit

/-! ## Lemmas about the change detector -/

theorem findVariantChangesAux_step_bounds (rest : List (Option JsStr))
    (prev : Option JsStr) (i : Nat) :
    ∀ e ∈ findVariantChangesAux prev i rest,
      i ≤ e.step ∧ e.step < i + rest.length := by
  induction rest generalizing prev i with
  | nil => simp [findVariantChangesAux]
  | cons t rest' ih =>
    intro e he
    simp only [findVariantChangesAux, List.mem_append] at he
    rcases he with h1 | h2
    · have hstep : e.step = i := by
        by_cases hc : t ≠ prev
        · simp only [if_pos hc, List.mem_singleton] at h1
          simp [h1]
        · simp [if_neg hc] at h1
      rw [hstep]
      simp only [List.length_cons]
      omega
    · obtain ⟨hl, hr⟩ := ih t (i + 1) e h2
      simp only [List.length_cons]
      omega

theorem findVariantChangesAux_length (rest : List (Option JsStr))
    (prev : Option JsStr) (i : Nat) :
    (findVariantChangesAux prev i rest).length ≤ rest.length := by
  induction rest generalizing prev i with
  | nil => simp [findVariantChangesAux]
  | cons t rest' ih =>
    simp only [findVariantChangesAux, List.length_append, List.length_cons]
    have := ih t (i + 1)
    by_cases hc : t ≠ prev
    · simp only [if_pos hc, List.length_singleton]
      omega
    · simp only [if_neg hc, List.length_nil]
      omega

theorem findVariantChangesAux_step_iff (rest : List (Option JsStr))
    (prev : Option JsStr) (i0 i : Nat) :
    (∃ e ∈ findVariantChangesAux prev i0 rest, e.step = i)
      ↔ (i0 ≤ i ∧ i - i0 < rest.length
          ∧ rest[i - i0]? ≠ (prev :: rest)[i - i0]?) := by
  induction rest generalizing prev i0 with
  | nil => simp [findVariantChangesAux]
  | cons t rest' ih =>
    have hsplit : (∃ e ∈ findVariantChangesAux prev i0 (t :: rest'), e.step = i)
        ↔ ((t ≠ prev ∧ i = i0) ∨
            ∃ e ∈ findVariantChangesAux t (i0 + 1) rest', e.step = i) := by
      simp only [findVariantChangesAux, List.mem_append]
      constructor
      · rintro ⟨e, he | he, hstep⟩
        · by_cases hc : t ≠ prev
          · simp only [if_pos hc, List.mem_singleton] at he
            exact Or.inl ⟨hc, by rw [← hstep, he]⟩
          · simp [if_neg hc] at he
        · exact Or.inr ⟨e, he, hstep⟩
      · rintro (⟨hc, rfl⟩ | ⟨e, he, hstep⟩)
        · exact ⟨⟨i, prev.getD qmark, t.getD qmark⟩,
            Or.inl (by simp [if_pos hc]), rfl⟩
        · exact ⟨e, Or.inr he, hstep⟩
    rw [hsplit, ih t (i0 + 1)]
    rcases Nat.lt_trichotomy i i0 with hlt | heq | hgt
    · constructor
      · rintro (⟨_, rfl⟩ | ⟨h1, _⟩) <;> omega
      · rintro ⟨h1, _⟩
        omega
    · subst heq
      have hz : i - i = 0 := by omega
      simp only [hz, List.getElem?_cons_zero, List.length_cons]
      constructor
      · rintro (⟨hc, _⟩ | ⟨h1, _⟩)
        · exact ⟨le_refl i, by omega, by simpa using hc⟩
        · exact absurd h1 (by omega)
      · rintro ⟨_, _, hne⟩
        exact Or.inl ⟨by simpa using hne, by trivial⟩
    · have h2 : i - i0 = (i - (i0 + 1)) + 1 := by omega
      simp only [h2, List.getElem?_cons_succ, List.length_cons]
      constructor
      · rintro (⟨_, rfl⟩ | ⟨ha, hb, hc⟩)
        · omega
        · exact ⟨by omega, by omega, hc⟩
      · rintro ⟨ha, hb, hc⟩
        exact Or.inr ⟨by omega, by omega, hc⟩

theorem findVariantChanges_step_iff (tags : List (Option JsStr)) (i : Nat) :
    (∃ e ∈ findVariantChanges tags, e.step = i)
      ↔ (1 ≤ i ∧ i < tags.length ∧ tags[i]? ≠ tags[i - 1]?) := by
  match tags with
  | [] => simp [findVariantChanges]
  | t :: rest =>
    show (∃ e ∈ findVariantChangesAux t 1 rest, e.step = i) ↔ _
    rw [findVariantChangesAux_step_iff rest t 1 i]
    constructor
    · rintro ⟨h1, h2, h3⟩
      obtain ⟨j, rfl⟩ : ∃ j, i = j + 1 := ⟨i - 1, by omega⟩
      refine ⟨h1, by simpa using by omega, ?_⟩
      simpa using h3
    · rintro ⟨h1, h2, h3⟩
      obtain ⟨j, rfl⟩ : ∃ j, i = j + 1 := ⟨i - 1, by omega⟩
      simp only [List.length_cons] at h2
      refine ⟨h1, by simpa using by omega, ?_⟩
      simpa using h3

/-! ## Lemmas about the variable classifier -/

theorem mem_classifyVars_numeric (state : ItfState) (varNames : List JsStr)
    (v : JsStr) :
    v ∈ (classifyVars state varNames).1
      ↔ v ∈ varNames ∧ (extractNumeric (getVar state v)).isSome := by
  induction varNames with
  | nil => simp [classifyVars]
  | cons w rest ih =>
    simp only [classifyVars]
    by_cases h1 : (extractNumeric (getVar state w)).isSome
    · simp only [if_pos h1, List.mem_cons]
      constructor
      · rintro (rfl | hv)
        · exact ⟨Or.inl rfl, h1⟩
        · obtain ⟨a, b⟩ := ih.mp hv
          exact ⟨Or.inr a, b⟩
      · rintro ⟨rfl | hv, hs⟩
        · exact Or.inl rfl
        · exact Or.inr (ih.mpr ⟨hv, hs⟩)
    · rw [if_neg h1]
      by_cases h2 : (extractVariantTag (getVar state w)).isSome
      · simp only [if_pos h2, List.mem_cons]
        constructor
        · intro hv
          obtain ⟨a, b⟩ := ih.mp hv
          exact ⟨Or.inr a, b⟩
        · rintro ⟨rfl | hv, hs⟩
          · exact absurd hs h1
          · exact ih.mpr ⟨hv, hs⟩
      · simp only [if_neg h2, List.mem_cons]
        constructor
        · intro hv
          obtain ⟨a, b⟩ := ih.mp hv
          exact ⟨Or.inr a, b⟩
        · rintro ⟨rfl | hv, hs⟩
          · exact absurd hs h1
          · exact ih.mpr ⟨hv, hs⟩

theorem mem_classifyVars_variant (state : ItfState) (varNames : List JsStr)
    (v : JsStr) :
    v ∈ (classifyVars state varNames).2
      ↔ v ∈ varNames ∧ ¬(extractNumeric (getVar state v)).isSome
          ∧ (extractVariantTag (getVar state v)).isSome := by
  induction varNames with
  | nil => simp [classifyVars]
  | cons w rest ih =>
    simp only [classifyVars]
    by_cases h1 : (extractNumeric (getVar state w)).isSome
    · simp only [if_pos h1, List.mem_cons]
      constructor
      · intro hv
        obtain ⟨a, b⟩ := ih.mp hv
        exact ⟨Or.inr a, b⟩
      · rintro ⟨rfl | hv, hn, hs⟩
        · exact absurd h1 hn
        · exact ih.mpr ⟨hv, hn, hs⟩
    · rw [if_neg h1]
      by_cases h2 : (extractVariantTag (getVar state w)).isSome
      · simp only [if_pos h2, List.mem_cons]
        constructor
        · rintro (rfl | hv)
          · exact ⟨Or.inl rfl, h1, h2⟩
          · obtain ⟨a, b⟩ := ih.mp hv
            exact ⟨Or.inr a, b⟩
        · rintro ⟨rfl | hv, hn, hs⟩
          · exact Or.inl rfl
          · exact Or.inr (ih.mpr ⟨hv, hn, hs⟩)
      · simp only [if_neg h2, List.mem_cons]
        constructor
        · intro hv
          obtain ⟨a, b⟩ := ih.mp hv
          exact ⟨Or.inr a, b⟩
        · rintro ⟨rfl | hv, hn, hs⟩
          · exact absurd hs h2
          · exact ih.mpr ⟨hv, hn, hs⟩

/-! ## Claim theorems -/

/-- Claim C1, counterexample: two variables whose names normalize to the same
short name interleave their samples in one entry, so with one state the entry
under that short name has length 2, not 1. -/
theorem c1_counterexample :
    "a::x".toList ∈ (["a::x".toList, "b::x".toList] : List JsStr) ∧
    ((getKey (buildSeries
        [[("a::x".toList, Cell.num (.fin 1)), ("b::x".toList, Cell.num (.fin 2))]]
        ["a::x".toList, "b::x".toList]) (stripPrefix "a::x".toList)).getD []).length
      ≠ ([[("a::x".toList, Cell.num (.fin 1)), ("b::x".toList, Cell.num (.fin 2))]]
          : List ItfState).length := by
  decide

/-- Claim C1 (amended): when the input variable names have pairwise-distinct
short names, the sequence stored under each variable's short name has length
equal to the number of states. -/
theorem c1_series_length (states : List ItfState) (vars : List JsStr)
    (v : JsStr) (hnd : (vars.map stripPrefix).Nodup) (hv : v ∈ vars) :
    ((getKey (buildSeries states vars) (stripPrefix v)).getD []).length
      = states.length := by
  rw [getKey_buildSeries_nodup states vars v hnd hv]
  simp

/-- Witness for the amended C1 at a concrete input. -/
theorem c1_series_length_witness :
    ((["a::x".toList, "b::y".toList].map stripPrefix).Nodup ∧
      "a::x".toList ∈ (["a::x".toList, "b::y".toList] : List JsStr)) ∧
    ((getKey (buildSeries [[]] ["a::x".toList, "b::y".toList])
        (stripPrefix "a::x".toList)).getD []).length = ([[]] : List ItfState).length :=
  ⟨⟨by decide, by decide⟩, c1_series_length [[]] _ _ (by decide) (by decide)⟩

/-- Claim C2, counterexample: with one state holding 3 under `m::y` and 4
under `n::y`, the entry under short name `y` is `[3, 4]`, not the last
colliding variable's series `[4]`: the collision interleaves instead of
overwriting. -/
theorem c2_counterexample :
    stripPrefix "m::y".toList = stripPrefix "n::y".toList ∧
    ([[("m::y".toList, Cell.num (.fin 3)), ("n::y".toList, Cell.num (.fin 4))]]
        : List ItfState).map
      (fun st => (extractNumeric (getVar st "n::y".toList)).getD (.fin 0))
      = [JsNumber.fin 4] ∧
    getKey (buildSeries
        [[("m::y".toList, Cell.num (.fin 3)), ("n::y".toList, Cell.num (.fin 4))]]
        ["m::y".toList, "n::y".toList]) (stripPrefix "n::y".toList)
      ≠ some [JsNumber.fin 4] := by
  decide

/-- Claim C2 (amended): when two variable names normalize to the same short
name, the entry under that short name holds, for each state in order, the
sample of each colliding variable in input order — the samples interleave
rather than the last variable's series overwriting the first. -/
theorem c2_collision_interleaves (states : List ItfState) (v1 v2 : JsStr)
    (hcol : stripPrefix v1 = stripPrefix v2) :
    getKey (buildSeries states [v1, v2]) (stripPrefix v2)
      = some (states.flatMap (fun st =>
          [(extractNumeric (getVar st v1)).getD (.fin 0),
            (extractNumeric (getVar st v2)).getD (.fin 0)])) :=
  getKey_buildSeries_pair states v1 v2 hcol

/-- Witness for the amended C2 at a concrete colliding input. -/
theorem c2_collision_interleaves_witness :
    stripPrefix "a::z".toList = stripPrefix "b::z".toList ∧
    getKey (buildSeries [[("a::z".toList, Cell.num (.fin 9))]]
        ["a::z".toList, "b::z".toList]) (stripPrefix "b::z".toList)
      = some [JsNumber.fin 9, JsNumber.fin 0] := by
  refine ⟨by decide, ?_⟩
  have h := c2_collision_interleaves [[("a::z".toList, Cell.num (.fin 9))]]
    "a::z".toList "b::z".toList (by decide)
  rw [h]
  decide

/-- Claim C3, counterexample: for the tag sequence `["A","B"]` (length 2) the
detector emits one event, at step 1, which does not lie in the claimed
half-open interval `[1, N-1) = [1, 1)`. -/
theorem c3_counterexample :
    (findVariantChanges [some "A".toList, some "B".toList]).length = 1 ∧
    ¬(∀ e ∈ findVariantChanges [some "A".toList, some "B".toList],
        1 ≤ e.step ∧ e.step <
          ([some "A".toList, some "B".toList] : List (Option JsStr)).length - 1) := by
  decide

/-- Claim C3 (amended): the detector never emits an event with step index 0;
for a tag sequence of length N it emits at most N-1 events, each with step
index in the closed interval `[1, N-1]` (equivalently the half-open `[1, N)`). -/
theorem c3_change_bounds (tags : List (Option JsStr)) :
    (findVariantChanges tags).length ≤ tags.length - 1 ∧
    ∀ e ∈ findVariantChanges tags,
      e.step ≠ 0 ∧ 1 ≤ e.step ∧ e.step ≤ tags.length - 1 := by
  match tags with
  | [] => simp [findVariantChanges]
  | t :: rest =>
    constructor
    · simpa using findVariantChangesAux_length rest t 1
    · intro e he
      obtain ⟨h1, h2⟩ := findVariantChangesAux_step_bounds rest t 1 e he
      simp only [List.length_cons]
      omega

/-- Witness for the amended C3 at a concrete tag sequence. -/
theorem c3_change_bounds_witness :
    (findVariantChanges [some "A".toList, none, some "A".toList]).length
        ≤ ([some "A".toList, none, some "A".toList]
            : List (Option JsStr)).length - 1 ∧
    ∀ e ∈ findVariantChanges [some "A".toList, none, some "A".toList],
      e.step ≠ 0 ∧ 1 ≤ e.step ∧ e.step ≤
        ([some "A".toList, none, some "A".toList]
          : List (Option JsStr)).length - 1 :=
  c3_change_bounds [some "A".toList, none, some "A".toList]

/-- Claim C4: an event with step index i exists exactly when 1 ≤ i < length
and the tag at i differs from the tag at i-1 (absence, `none`, differs from
every tag string); and the sequence `["A","A","B","B","A"]` yields exactly
the events `{step 2, A→B}` and `{step 4, B→A}`. -/
theorem c4_change_steps :
    (∀ (tags : List (Option JsStr)) (i : Nat),
        (∃ e ∈ findVariantChanges tags, e.step = i)
          ↔ (1 ≤ i ∧ i < tags.length ∧ tags[i]? ≠ tags[i - 1]?)) ∧
    findVariantChanges [some "A".toList, some "A".toList, some "B".toList,
        some "B".toList, some "A".toList]
      = [⟨2, "A".toList, "B".toList⟩, ⟨4, "B".toList, "A".toList⟩] :=
  ⟨findVariantChanges_step_iff, by decide⟩

/-- Witness for C4: the characterization applied at a concrete sequence and
step index. -/
theorem c4_change_steps_witness :
    ∃ e ∈ findVariantChanges [some "A".toList, some "B".toList], e.step = 1 :=
  (c4_change_steps.1 [some "A".toList, some "B".toList] 1).mpr (by decide)

/-- Claim C5: the series builder appends `extractNumeric(state[v]) ?? 0`, so
whenever extraction fails (including an absent variable) 0 is appended and no
error is raised; in particular states `[{}, {x: 5}]` with variable `x` build
the series `[0, 5]`. -/
theorem c5_missing_defaults_to_zero :
    (∀ (states : List ItfState) (v : JsStr),
        getKey (buildSeries states [v]) (stripPrefix v)
          = some (states.map
              (fun st => (extractNumeric (getVar st v)).getD (.fin 0)))) ∧
    getKey (buildSeries [[], [("x".toList, Cell.num (.fin 5))]] ["x".toList])
        (stripPrefix "x".toList)
      = some [JsNumber.fin 0, JsNumber.fin 5] := by
  constructor
  · intro states v
    exact getKey_buildSeries_nodup states [v] v (by simp) (by simp)
  · decide

/-- Claim C6: cell `{"#bigint": "42"}` numerically extracts to 42, a plain 7
extracts to 7, and `{"tag": "Idle"}` fails numeric extraction while variant
extraction yields the tag `Idle`. -/
theorem c6_cell_extraction :
    extractNumeric (some (Cell.obj (some "42".toList) none))
        = some (JsNumber.fin 42) ∧
    extractNumeric (some (Cell.num (.fin 7))) = some (JsNumber.fin 7) ∧
    extractNumeric (some (Cell.obj none (some "Idle".toList))) = none ∧
    extractVariantTag (some (Cell.obj none (some "Idle".toList)))
        = some "Idle".toList := by
  decide

/-- Claim C7: the two groups returned by the variable classifier are
disjoint — a name in the numeric group is never in the variant group. -/
theorem c7_classification_disjoint (state : ItfState) (varNames : List JsStr)
    (v : JsStr) (h : v ∈ (classifyVars state varNames).1) :
    v ∉ (classifyVars state varNames).2 := by
  intro h2
  have hn := (mem_classifyVars_numeric state varNames v).mp h
  have hv := (mem_classifyVars_variant state varNames v).mp h2
  exact hv.2.1 hn.2

/-- Witness for C7 at a concrete state and variable list. -/
theorem c7_classification_disjoint_witness :
    "x".toList ∈ (classifyVars
        [("x".toList, Cell.num (.fin 1)),
          ("m".toList, Cell.obj none (some "Idle".toList))]
        ["x".toList, "m".toList]).1 ∧
    "x".toList ∉ (classifyVars
        [("x".toList, Cell.num (.fin 1)),
          ("m".toList, Cell.obj none (some "Idle".toList))]
        ["x".toList, "m".toList]).2 :=
  ⟨by decide, c7_classification_disjoint _ _ _ (by decide)⟩

/-- Claim C8: name normalization is idempotent on every string; a name with
no separator is returned unchanged; and a name made of separator-delimited
segments normalizes to exactly its last segment. -/
theorem c8_strip_idempotent_and_last_segment :
    (∀ s : JsStr, stripPrefix (stripPrefix s) = stripPrefix s) ∧
    (∀ s : JsStr, hasColons s = false → stripPrefix s = s) ∧
    (∀ segs : List JsStr, segs ≠ [] → (∀ seg ∈ segs, ':' ∉ seg) →
        stripPrefix (joinColons segs) = segs.getLastD []) := by
  refine ⟨?_, ?_, ?_⟩
  · intro s
    show (splitColons (stripPrefix s)).getLastD [] = stripPrefix s
    rw [splitColons_of_hasColons_eq_false _ (hasColons_stripPrefix s)]
    rfl
  · intro s h
    show (splitColons s).getLastD [] = s
    rw [splitColons_of_hasColons_eq_false s h]
    rfl
  · intro segs hne hc
    show (splitColons (joinColons segs)).getLastD [] = segs.getLastD []
    rw [splitColons_joinColons segs hne hc]

/-- Witness for C8 at concrete names and segments. -/
theorem c8_strip_witness :
    stripPrefix (stripPrefix "a::b::c".toList) = stripPrefix "a::b::c".toList ∧
    (hasColons "plain".toList = false ∧
      stripPrefix "plain".toList = "plain".toList) ∧
    ((["mod".toList, "sub".toList, "v".toList] : List JsStr) ≠ [] ∧
      (∀ seg ∈ (["mod".toList, "sub".toList, "v".toList] : List JsStr),
        ':' ∉ seg) ∧
      stripPrefix (joinColons ["mod".toList, "sub".toList, "v".toList])
        = (["mod".toList, "sub".toList, "v".toList] : List JsStr).getLastD []) :=
  ⟨c8_strip_idempotent_and_last_segment.1 _,
    ⟨by decide, c8_strip_idempotent_and_last_segment.2.1 _ (by decide)⟩,
    ⟨by decide, by decide,
      c8_strip_idempotent_and_last_segment.2.2 _ (by decide) (by decide)⟩⟩

/-- Claim C9: a big-integer wrapper cell always numerically extracts to the
numeric parse of its payload — never the absence marker — including the
not-a-number sentinel for an unparseable payload; hence a variable whose
first-state cell is such a wrapper always lands in the numeric group. -/
theorem c9_bigint_always_numeric :
    (∀ (s : JsStr) (tagF : Option JsStr),
        extractNumeric (some (Cell.obj (some s) tagF))
          = some (jsNumberOfString s)) ∧
    (∀ (state : ItfState) (varNames : List JsStr) (v s : JsStr)
        (tagF : Option JsStr), v ∈ varNames →
        getVar state v = some (Cell.obj (some s) tagF) →
        v ∈ (classifyVars state varNames).1) ∧
    extractNumeric (some (Cell.obj (some "xyz".toList) none))
        = some JsNumber.nan := by
  refine ⟨fun s tagF => rfl, ?_, by decide⟩
  intro state varNames v s tagF hv hst
  refine (mem_classifyVars_numeric state varNames v).mpr ⟨hv, ?_⟩
  rw [hst]
  rfl

/-- Witness for C9 at a concrete state with an unparseable payload. -/
theorem c9_bigint_always_numeric_witness :
    extractNumeric (some (Cell.obj (some "q".toList) none))
        = some (jsNumberOfString "q".toList) ∧
    ("b".toList ∈ (["b".toList] : List JsStr) ∧
      getVar [("b".toList, Cell.obj (some "q".toList) none)] "b".toList
        = some (Cell.obj (some "q".toList) none)) ∧
    "b".toList ∈ (classifyVars [("b".toList, Cell.obj (some "q".toList) none)]
        ["b".toList]).1 :=
  ⟨c9_bigint_always_numeric.1 _ _, ⟨by decide, by decide⟩,
    c9_bigint_always_numeric.2.1 _ _ _ "q".toList none (by decide) (by decide)⟩

/-- Claim C10, counterexample: with variables `a::x` and `b::x` (same short
name `x`) and one state holding only `b::x = 5`, the variable `a::x` is
absent from every state, yet the entry under its short name is `[0, 5]` — it
receives the colliding variable's sample too, so it is not an all-zero
series. -/
theorem c10_counterexample :
    (∀ st ∈ ([[("b::x".toList, Cell.num (.fin 5))]] : List ItfState),
        getVar st "a::x".toList = none) ∧
    "a::x".toList ∈ (["a::x".toList, "b::x".toList] : List JsStr) ∧
    (getKey (buildSeries [[("b::x".toList, Cell.num (.fin 5))]]
        ["a::x".toList, "b::x".toList]) (stripPrefix "a::x".toList)).getD []
      = [JsNumber.fin 0, JsNumber.fin 5] ∧
    ¬(∀ x ∈ (getKey (buildSeries [[("b::x".toList, Cell.num (.fin 5))]]
        ["a::x".toList, "b::x".toList]) (stripPrefix "a::x".toList)).getD [],
        x = JsNumber.fin 0) := by
  decide

/-- Claim C10 (amended): the key set of the built series map is exactly the
set of short names of the input variables; an empty variable list yields an
empty map; and a variable absent from every state still receives an entry,
which is the all-zero series when the short names are pairwise distinct
(under a short-name collision the entry also holds the colliding variable's
samples, as the counterexample shows). -/
theorem c10_keys_exact (states : List ItfState) (vars : List JsStr) :
    (∀ k : JsStr, (getKey (buildSeries states vars) k).isSome
        ↔ k ∈ vars.map stripPrefix) ∧
    buildSeries states [] = [] ∧
    (∀ v ∈ vars, (vars.map stripPrefix).Nodup →
        (∀ st ∈ states, getVar st v = none) →
        getKey (buildSeries states vars) (stripPrefix v)
          = some (List.replicate states.length (JsNumber.fin 0))) := by
  refine ⟨fun k => isSome_getKey_buildSeries states vars k,
    buildSeries_nil_vars states, ?_⟩
  intro v hv hnd habs
  rw [getKey_buildSeries_nodup states vars v hnd hv]
  have hmap : states.map
      (fun st => (extractNumeric (getVar st v)).getD (.fin 0))
        = states.map (fun _ => JsNumber.fin 0) := by
    apply List.map_congr_left
    intro st hst
    rw [habs st hst]
    rfl
  rw [hmap, List.map_const']

/-- Witness for C10 at a concrete input with one state missing the variable. -/
theorem c10_keys_exact_witness :
    ((getKey (buildSeries [[]] ["a::x".toList]) "x".toList).isSome
        ↔ "x".toList ∈ (["a::x".toList] : List JsStr).map stripPrefix) ∧
    ("a::x".toList ∈ (["a::x".toList] : List JsStr) ∧
      ((["a::x".toList] : List JsStr).map stripPrefix).Nodup ∧
      (∀ st ∈ ([[]] : List ItfState), getVar st "a::x".toList = none)) ∧
    getKey (buildSeries [[]] ["a::x".toList]) (stripPrefix "a::x".toList)
      = some (List.replicate ([[]] : List ItfState).length (JsNumber.fin 0)) :=
  ⟨(c10_keys_exact [[]] ["a::x".toList]).1 _,
    ⟨by decide, by decide, by decide⟩,
    (c10_keys_exact [[]] ["a::x".toList]).2.2 _ (by decide) (by decide)
      (by decide)⟩

end QuintViz
